import Mathlib

/-!
Shallow embedding of the GPU histogram repository
(src/src/main.cu and src/tester/tester.cpp).

Device memory is modelled as follows: the input sample buffer is a total
function from addresses to integer values together with an explicit length N
(out-of-bounds reads past N are possible addresses, which lets us state that
the kernels never depend on them); histograms and on-chip shared accumulators
are lists of machine integers whose length is the allocated element count, and
every indexed store goes through a fallible update that returns none on an
out-of-bounds access, mirroring the undefined behaviour of an out-of-bounds
atomicAdd in the source.  Atomic read-modify-write operations commute, so the
concurrent kernels are embedded as a sequential fold over blocks, over the
threads of each block, and over each thread's loop iterations, in program
order; this is count-preserving and failure-preserving for every interleaving.
A grid launch with gridDim G and blockDim D runs global thread ids
b * D + t for b < G, t < D, exactly as blockIdx.x * blockDim.x + threadIdx.x.
-/

/-- Fallible indexed accumulation: the effect of atomicAdd(&buf[i], v) on an
int buffer holding buf.length elements; none models the out-of-bounds access
that a too-large index produces in the source. -/
def atomicAdd (buf : List ℤ) (i : ℕ) (v : ℤ) : Option (List ℤ) :=
  if i < buf.length then some (buf.set i (buf.getD i 0 + v)) else none

/-- In-range test of the optimized kernel, main.cu line 78:
value >= 0 && value < numBins. -/
def inRangeVal (numBins : ℕ) (value : ℤ) : Bool :=
  decide (0 ≤ value) && decide (value < (numBins : ℤ))

/-- Fuel-driven worker for strideIdxs; the fuel only forces structural
termination and is irrelevant whenever it is at least N - i. -/
def strideIdxsAux (N T : ℕ) : ℕ → ℕ → List ℕ
  | 0, _ => []
  | fuel + 1, i =>
    if i < N ∧ 0 < T then i :: strideIdxsAux N T fuel (i + T) else []

/-- Index set of a grid-stride loop, main.cu line 25: the indices
i, i + T, i + 2T, ... that stay below N (T = blockDim.x * gridDim.x).
The 0 < T side condition is a termination guard; every real launch has a
positive thread count. -/
def strideIdxs (N T i : ℕ) : List ℕ := strideIdxsAux N T (N - i) i

theorem strideIdxsAux_fuel {N T : ℕ} :
    ∀ {fuel fuel' i : ℕ}, N - i ≤ fuel → N - i ≤ fuel' →
      strideIdxsAux N T fuel i = strideIdxsAux N T fuel' i := by
  intro fuel
  induction fuel with
  | zero =>
    intro fuel' i h h'
    match fuel' with
    | 0 => rfl
    | f + 1 =>
      simp only [strideIdxsAux]
      rw [if_neg]
      rintro ⟨h1, h2⟩; omega
  | succ f ih =>
    intro fuel' i h h'
    match fuel' with
    | 0 =>
      simp only [strideIdxsAux]
      rw [if_neg]
      rintro ⟨h1, h2⟩; omega
    | f' + 1 =>
      simp only [strideIdxsAux]
      by_cases hc : i < N ∧ 0 < T
      · obtain ⟨h1, h2⟩ := hc
        rw [if_pos ⟨h1, h2⟩, if_pos ⟨h1, h2⟩]
        exact congrArg _ (ih (by omega) (by omega))
      · rw [if_neg hc, if_neg hc]

/-- Unfolding rule of strideIdxs in the shape of the source loop. -/
theorem strideIdxs_unfold (N T i : ℕ) :
    strideIdxs N T i =
      if i < N ∧ 0 < T then i :: strideIdxs N T (i + T) else [] := by
  by_cases hc : i < N ∧ 0 < T
  · rw [if_pos hc]
    show strideIdxsAux N T (N - i) i = _
    have hNi : N - i = (N - i - 1) + 1 := by omega
    rw [hNi]
    simp only [strideIdxsAux, if_pos hc]
    exact congrArg _ (strideIdxsAux_fuel (by omega) (by omega))
  · rw [if_neg hc]
    show strideIdxsAux N T (N - i) i = []
    match hNi : N - i with
    | 0 => rfl
    | f + 1 => simp only [strideIdxsAux, if_neg hc]

/-- Naive kernel, main.cu lines 10-15: one thread per global id idx < T,
each guarded by idx < N, incrementing histogram[input[idx]] with no range
filter.  The input buffer elements are unsigned char values.  numBins is a
parameter of the source kernel that its body never uses. -/
def computeHistogramNaive (input : ℕ → ℤ) (N numBins T : ℕ)
    (histogram : List ℤ) : Option (List ℤ) :=
  (List.range T).foldlM
    (fun hist idx =>
      if idx < N then atomicAdd hist (input idx).toNat 1 else pure hist)
    histogram

/-- Final reduction of a shared accumulator into the global histogram,
main.cu lines 30-34 and 99-104: for each bin i < numBins, add sharedHist[i]
into histogram[i], skipping zero entries. -/
def foldSharedToGlobal (numBins : ℕ) (sh hist : List ℤ) : Option (List ℤ) :=
  (List.range numBins).foldlM
    (fun h i => if sh.getD i 0 > 0 then atomicAdd h i (sh.getD i 0) else pure h)
    hist

/-- Global thread ids of block bid: blockIdx.x * blockDim.x + threadIdx.x
for threadIdx.x < blockDim.x. -/
def blockThreads (blockDim bid : ℕ) : List ℕ :=
  (List.range blockDim).map (fun t => bid * blockDim + t)

/-- Shared-memory kernel, main.cu lines 18-35: per block, zero a shared
accumulator of numBins slots, let every thread of the block walk its
grid-stride indices incrementing sharedHist[input[i]] (no range filter:
an input value at or above numBins is an out-of-bounds shared access),
then fold the shared accumulator into the global histogram.  The input
buffer elements are unsigned char values. -/
def computeHistogramShared (input : ℕ → ℤ) (N numBins gridDim blockDim : ℕ)
    (histogram : List ℤ) : Option (List ℤ) :=
  (List.range gridDim).foldlM
    (fun hist bid => do
      let sh ← (blockThreads blockDim bid).foldlM
        (fun sh tid =>
          (strideIdxs N (blockDim * gridDim) tid).foldlM
            (fun s i => atomicAdd s (input i).toNat 1) sh)
        (List.replicate numBins 0)
      foldSharedToGlobal numBins sh hist)
    histogram

/-- Per-thread unroll factor of the optimized kernel, main.cu line 56. -/
def elementsPerThread : ℕ := 12

/-- Prefetch stage of one batch of the optimized kernel, main.cu lines 63-72:
slot i holds input[base + i * T] when that index is below N and the sentinel
-1 otherwise. -/
def batchVals (input : ℕ → ℤ) (N T base : ℕ) : List ℤ :=
  (List.range elementsPerThread).map
    (fun i => if base + i * T < N then input (base + i * T) else -1)

/-- Fuel-driven worker for optThreadVals; the fuel only forces structural
termination and is irrelevant whenever it is at least N - base. -/
def optThreadValsAux (input : ℕ → ℤ) (N T : ℕ) : ℕ → ℕ → List ℤ
  | 0, _ => []
  | fuel + 1, base =>
    if base < N ∧ 0 < T then
      batchVals input N T base ++
        optThreadValsAux input N T fuel (base + T * elementsPerThread)
    else []

/-- Values processed by the optimized-kernel thread whose first batch starts
at base, main.cu line 59: batches of elementsPerThread slots, advancing by
T * elementsPerThread while the batch base stays below N.  The 0 < T side
condition is a termination guard; every real launch has a positive thread
count. -/
def optThreadVals (input : ℕ → ℤ) (N T base : ℕ) : List ℤ :=
  optThreadValsAux input N T (N - base) base

theorem optThreadValsAux_fuel {input : ℕ → ℤ} {N T : ℕ} :
    ∀ {fuel fuel' base : ℕ}, N - base ≤ fuel → N - base ≤ fuel' →
      optThreadValsAux input N T fuel base = optThreadValsAux input N T fuel' base := by
  intro fuel
  induction fuel with
  | zero =>
    intro fuel' base h h'
    match fuel' with
    | 0 => rfl
    | f + 1 =>
      simp only [optThreadValsAux]
      rw [if_neg]
      rintro ⟨h1, h2⟩; omega
  | succ f ih =>
    intro fuel' base h h'
    match fuel' with
    | 0 =>
      simp only [optThreadValsAux]
      rw [if_neg]
      rintro ⟨h1, h2⟩; omega
    | f' + 1 =>
      simp only [optThreadValsAux]
      by_cases hc : base < N ∧ 0 < T
      · obtain ⟨h1, h2⟩ := hc
        have hT : 0 < T * elementsPerThread := by
          simp only [elementsPerThread]; omega
        rw [if_pos ⟨h1, h2⟩, if_pos ⟨h1, h2⟩]
        exact congrArg _ (ih (by omega) (by omega))
      · rw [if_neg hc, if_neg hc]

/-- Unfolding rule of optThreadVals in the shape of the source loop. -/
theorem optThreadVals_unfold (input : ℕ → ℤ) (N T base : ℕ) :
    optThreadVals input N T base =
      if base < N ∧ 0 < T then
        batchVals input N T base ++
          optThreadVals input N T (base + T * elementsPerThread)
      else [] := by
  by_cases hc : base < N ∧ 0 < T
  · rw [if_pos hc]
    show optThreadValsAux input N T (N - base) base = _
    have hNb : N - base = (N - base - 1) + 1 := by omega
    have hT : 0 < T * elementsPerThread := by
      have := hc.2; simp only [elementsPerThread]; omega
    rw [hNb]
    simp only [optThreadValsAux, if_pos hc]
    exact congrArg _ (optThreadValsAux_fuel (by omega) (by omega))
  · rw [if_neg hc]
    show optThreadValsAux input N T (N - base) base = []
    match hNb : N - base with
    | 0 => rfl
    | f + 1 => simp only [optThreadValsAux, if_neg hc]

/-- Classification stage of the optimized kernel, main.cu lines 76-85: an
in-range value below 32 bumps the thread-local register counter, an in-range
value at or above 32 atomically bumps the shared accumulator, everything else
is dropped.  The state is (localHist, sharedHist). -/
def optClassify (numBins : ℕ) (st : List ℤ × List ℤ) (value : ℤ) :
    Option (List ℤ × List ℤ) :=
  if inRangeVal numBins value then
    if value < 32 then
      pure (st.1.set value.toNat (st.1.getD value.toNat 0 + 1), st.2)
    else do
      let sh ← atomicAdd st.2 value.toNat 1
      pure (st.1, sh)
  else pure st

/-- Merge of the 32 thread-local register counters into the shared
accumulator, main.cu lines 89-94, skipping zero entries. -/
def optMergeLocal (lh sh : List ℤ) : Option (List ℤ) :=
  (List.range 32).foldlM
    (fun s i => if lh.getD i 0 > 0 then atomicAdd s i (lh.getD i 0) else pure s)
    sh

/-- One optimized-kernel thread: zero-initialized 32-slot local histogram,
classification of every prefetched value, then the local-to-shared merge. -/
def optThreadRun (numBins : ℕ) (vals : List ℤ) (sh : List ℤ) :
    Option (List ℤ) := do
  let st ← vals.foldlM (optClassify numBins) (List.replicate 32 0, sh)
  optMergeLocal st.1 st.2

/-- Optimized (hierarchical) kernel, main.cu lines 38-105: per block, zero a
shared accumulator of numBins slots, run every thread of the block (prefetch,
classify, merge locals), then fold the shared accumulator into the global
histogram. -/
def computeHistogramOptimized (input : ℕ → ℤ) (N numBins gridDim blockDim : ℕ)
    (histogram : List ℤ) : Option (List ℤ) :=
  (List.range gridDim).foldlM
    (fun hist bid => do
      let sh ← (blockThreads blockDim bid).foldlM
        (fun sh tid =>
          optThreadRun numBins (optThreadVals input N (blockDim * gridDim) tid) sh)
        (List.replicate numBins 0)
      foldSharedToGlobal numBins sh hist)
    histogram

/-- CPU reference counter, main.cu lines 108-116: zero numBins bins, then one
sequential pass incrementing histogram[input[i]] with no range filter.  The
input buffer elements are unsigned char values. -/
def computeHistogramCPU (input : ℕ → ℤ) (N numBins : ℕ) : Option (List ℤ) :=
  (List.range N).foldlM
    (fun hist i => atomicAdd hist (input i).toNat 1)
    (List.replicate numBins 0)

/-- Reference histogram: bin b holds the number of samples below index N whose
value is exactly b.  For b < numBins this is also the number of in-range
samples equal to b, since the value b itself lies in [0, numBins). -/
def refHist (input : ℕ → ℤ) (N numBins : ℕ) : List ℤ :=
  (List.range numBins).map
    (fun b : ℕ =>
      (((List.range N).countP (fun i => decide (input i = (b : ℤ)))) : ℤ))

namespace solution

/-- Block size chosen by the launch planner, main.cu line 153. -/
def blockSize : ℕ := 1024

/-- Occupancy-target grid size, main.cu line 168:
(numSMs * 2048 + blockSize - 1) / blockSize. -/
def gridSizeOccupancy (numSMs : ℕ) : ℕ :=
  (numSMs * 2048 + blockSize - 1) / blockSize

/-- Work-covering grid bound, main.cu line 171:
(N + blockSize * 12 - 1) / (blockSize * 12). -/
def maxGridSize (N : ℕ) : ℕ :=
  (N + blockSize * 12 - 1) / (blockSize * 12)

/-- Grid size actually launched, main.cu lines 168-172: the occupancy target,
clamped down to the work-covering bound when it exceeds it. -/
def gridSize (numSMs N : ℕ) : ℕ :=
  if gridSizeOccupancy numSMs > maxGridSize N then maxGridSize N
  else gridSizeOccupancy numSMs

/-- Dynamic shared-memory request of the launch, main.cu line 175:
B * sizeof(int) bytes. -/
def sharedMemSize (B : ℕ) : ℕ := B * 4

/-- Output path of solution::compute, main.cu line 120: the constant file
name student_histogram.dat under the platform temporary directory,
independent of every argument. -/
def solPath (tmpDir : String) : String := tmpDir ++ "/student_histogram.dat"

/-- Histogram bytes written by solution::compute, main.cu lines 150-192: the
device histogram is memset to zero, the optimized kernel is launched with the
planned geometry, and the buffer is copied back with no error check, so a
launch that did no work leaves the memset zeros in place (the getD fallback). -/
def computeContents (input : ℕ → ℤ) (N B numSMs : ℕ) : List ℤ :=
  (computeHistogramOptimized input N B (gridSize numSMs N) blockSize
    (List.replicate B 0)).getD (List.replicate B 0)

/-- Full effect of solution::compute, main.cu lines 119-196, on an abstract
file store mapping paths to file contents: it writes the computed histogram
to the constant output path (creating or truncating that file) and returns
the path.  No error of any kind is surfaced: the function is total and
always hands back the path. -/
def compute (fs : String → Option (List ℤ)) (tmpDir inputPath : String)
    (input : ℕ → ℤ) (N B numSMs : ℕ) :
    String × (String → Option (List ℤ)) :=
  (solPath tmpDir,
   fun p => if p = solPath tmpDir then some (computeContents input N B numSMs)
            else fs p)

end solution

/-- Result of one harness process run: exit code plus the lines written to
standard output and standard error. -/
structure ProcResult where
  exitCode : ℕ
  stdoutLines : List String
  stderrLines : List String
  deriving DecidableEq

/-- Graceful termination helper of the tester, tester.cpp lines 13-17: print
-1 to standard output, the diagnostic to standard error, then
exit(EXIT_SUCCESS). -/
def terminateGracefully (out : List String) (msg : String) : ProcResult :=
  ⟨0, out ++ ["-1"], [msg]⟩

/-- Verification scan of the tester, tester.cpp lines 99-105: the first bin
below B where the reference and student histograms disagree, with both
values. -/
def firstMismatch (sol stud : List ℤ) (B : ℕ) : Option (ℕ × ℤ × ℤ) :=
  (List.range B).findSome?
    (fun i => if sol.getD i 0 ≠ stud.getD i 0
              then some (i, sol.getD i 0, stud.getD i 0) else none)

/-- Control flow of the tester main, tester.cpp lines 19-114: too few
arguments, a thrown exception, and a histogram mismatch each reach
terminateGracefully; otherwise the timing line is printed and main returns
EXIT_SUCCESS.  progress stands for the staging lines printed before the
failure point; excMsg is the message of the exception thrown inside the try
block, if any. -/
def testerMain (argc : ℕ) (excMsg : Option String) (B : ℕ)
    (solHist studHist : List ℤ) (progress : List String) (ms : ℕ) : ProcResult :=
  if argc < 3 then
    terminateGracefully [] "Usage: ./tester.out <N> <B> <optional:seed>"
  else
    match excMsg with
    | some m => terminateGracefully progress m
    | none =>
      match firstMismatch solHist studHist B with
      | some (i, e, g) =>
        terminateGracefully progress
          ("Histogram mismatch at bin " ++ toString i ++ ": expected " ++
            toString e ++ ", got " ++ toString g)
      | none =>
        ⟨0, progress ++ ["Execution time: " ++ toString ms ++ " ms"], []⟩

/-- Handled-failure condition of the tester: one of the three guarded failure
paths fires. -/
def isHandledFailure (argc : ℕ) (excMsg : Option String) (B : ℕ)
    (solHist studHist : List ℤ) : Bool :=
  decide (argc < 3) || excMsg.isSome || (firstMismatch solHist studHist B).isSome

example : computeHistogramCPU (fun i => [0,1,1,2,3,3,3,0,2,1].getD i 0) 10 4 =
    some [2, 3, 2, 3] := by decide

example : computeHistogramOptimized (fun i => [0,1,1,2,3,3,3,0,2,1].getD i 0)
    10 4 1 3 (List.replicate 4 0) = some [2, 3, 2, 3] := by decide

example : computeHistogramShared (fun i => [0,1,1,2,3,3,3,0,2,1].getD i 0)
    10 4 2 2 (List.replicate 4 0) = some [2, 3, 2, 3] := by decide

example : computeHistogramNaive (fun i => [0,1,1,2,3,3,3,0,2,1].getD i 0)
    10 4 12 (List.replicate 4 0) = some [2, 3, 2, 3] := by decide

example : computeHistogramShared (fun _ => 5) 1 2 1 1 (List.replicate 2 0)
    = none := by decide

example : computeHistogramNaive (fun _ => 5) 1 2 1 (List.replicate 2 0)
    = none := by decide

example : computeHistogramOptimized (fun _ => 5) 1 2 1 1 (List.replicate 2 0)
    = some [0, 0] := by decide

example : solution.gridSize 80 536870912 = 160 := by decide

example : solution.gridSize 80 0 = 0 := by decide

/-! Helper lemmas about list updates and the fallible accumulation folds. -/

theorem getD_set_self (l : List ℤ) (i : ℕ) (x : ℤ) (h : i < l.length) :
    (l.set i x).getD i 0 = x := by
  simp [List.getD_eq_getElem?_getD, List.getElem?_set_self h]

theorem getD_set_ne (l : List ℤ) (i j : ℕ) (x : ℤ) (h : i ≠ j) :
    (l.set i x).getD j 0 = l.getD j 0 := by
  simp [List.getD_eq_getElem?_getD, List.getElem?_set_ne h]

theorem atomicAdd_eq_some {buf : List ℤ} {i : ℕ} (v : ℤ) (h : i < buf.length) :
    atomicAdd buf i v = some (buf.set i (buf.getD i 0 + v)) := by
  simp [atomicAdd, h]

theorem atomicAdd_spec {buf : List ℤ} {i : ℕ} (v : ℤ) (h : i < buf.length) :
    ∃ buf', atomicAdd buf i v = some buf' ∧ buf'.length = buf.length ∧
      (∀ j, buf'.getD j 0 = buf.getD j 0 + if i = j then v else 0) := by
  refine ⟨buf.set i (buf.getD i 0 + v), atomicAdd_eq_some v h, by simp, ?_⟩
  intro j
  by_cases hij : i = j
  · subst hij; rw [getD_set_self _ _ _ h, if_pos rfl]
  · rw [getD_set_ne _ _ _ _ hij, if_neg hij]; ring

theorem foldlM_congr_mem {α β : Type} {l : List α} {f g : β → α → Option β}
    (h : ∀ b a, a ∈ l → f b a = g b a) :
    ∀ b, l.foldlM f b = l.foldlM g b := by
  induction l with
  | nil => intro b; rfl
  | cons x xs ih =>
    intro b
    simp only [List.foldlM_cons]
    rw [h b x (by simp)]
    cases g b x with
    | none => rfl
    | some b' =>
      simp only [Option.bind_eq_bind, Option.some_bind]
      exact ih (fun b a ha => h b a (by simp [ha])) b'

theorem foldlM_pure_const {α β : Type} (l : List α) (b : β) :
    l.foldlM (fun acc _ => (pure acc : Option β)) b = pure b := by
  induction l generalizing b with
  | nil => rfl
  | cons x xs ih => simp only [List.foldlM_cons, pure_bind]; exact ih _

/-- Effect of a fold of unconditional unit increments at indices g i: it
succeeds exactly when every touched index is in bounds, and each bin j
receives one unit per list element with g i = j. -/
theorem foldlM_inc_spec (g : ℕ → ℕ) (l : List ℕ) (hist : List ℤ)
    (hg : ∀ i, i ∈ l → g i < hist.length) :
    ∃ h, l.foldlM (fun acc i => atomicAdd acc (g i) 1) hist = some h ∧
      h.length = hist.length ∧
      ∀ j, h.getD j 0 = hist.getD j 0 + (l.countP (fun i => decide (g i = j)) : ℤ) := by
  induction l generalizing hist with
  | nil => exact ⟨hist, rfl, rfl, by simp⟩
  | cons x xs ih =>
    obtain ⟨h1, e1, len1, spec1⟩ := atomicAdd_spec 1 (hg x (by simp))
    obtain ⟨h2, e2, len2, spec2⟩ := ih h1 (fun i hi => len1 ▸ hg i (by simp [hi]))
    refine ⟨h2, ?_, by rw [len2, len1], ?_⟩
    · simp only [List.foldlM_cons, e1, Option.bind_eq_bind, Option.some_bind]
      exact e2
    · intro j
      rw [spec2 j, spec1 j, List.countP_cons]
      by_cases hxj : g x = j <;> simp [hxj] <;> push_cast <;> ring

/-- Effect of the conditional accumulation loops (lines 30-34, 89-94, 99-104):
for each index i below K, add a i when it is positive.  When every a j is a
count (nonnegative, and positive only at in-bounds indices) the fold succeeds
and bin j receives a j for j < K. -/
theorem foldlM_condAdd_spec (a : ℕ → ℤ) (K : ℕ) (hist : List ℤ)
    (ha : ∀ j, j < K → 0 ≤ a j ∧ (0 < a j → j < hist.length)) :
    ∃ h, (List.range K).foldlM
        (fun acc i => if a i > 0 then atomicAdd acc i (a i) else pure acc) hist
        = some h ∧
      h.length = hist.length ∧
      ∀ j, h.getD j 0 = hist.getD j 0 + (if j < K then a j else 0) := by
  induction K generalizing hist with
  | zero => exact ⟨hist, rfl, rfl, by simp⟩
  | succ K ih =>
    obtain ⟨h1, e1, len1, spec1⟩ := ih hist (fun j hj => ha j (by omega))
    by_cases hK : 0 < a K
    · obtain ⟨h2, e2, len2, spec2⟩ := atomicAdd_spec (a K)
        (len1 ▸ (ha K (by omega)).2 hK)
      refine ⟨h2, ?_, by rw [len2, len1], ?_⟩
      · rw [List.range_succ, List.foldlM_append, e1]
        simp only [Option.bind_eq_bind, Option.some_bind, List.foldlM_cons,
          List.foldlM_nil, if_pos hK, e2]
        cases e2' : atomicAdd h1 K (a K) <;> simp_all
      · intro j
        rw [spec2 j, spec1 j]
        by_cases hjK : K = j
        · subst hjK; rw [if_pos rfl]
          rw [if_neg (by omega), if_pos (by omega)]; ring
        · rw [if_neg hjK, add_zero]
          by_cases hj : j < K
          · rw [if_pos hj, if_pos (by omega)]
          · rw [if_neg hj, if_neg (by omega)]
    · refine ⟨h1, ?_, len1, ?_⟩
      · rw [List.range_succ, List.foldlM_append, e1]
        simp only [Option.bind_eq_bind, Option.some_bind, List.foldlM_cons,
          List.foldlM_nil, if_neg hK]
        rfl
      · intro j
        rw [spec1 j]
        by_cases hjK : K = j
        · subst hjK
          rw [if_neg (by omega), if_pos (by omega)]
          have hza : a K = 0 := le_antisymm (not_lt.mp hK) (ha K (by omega)).1
          rw [hza, add_zero]
        · by_cases hj : j < K
          · rw [if_pos hj, if_pos (by omega)]
          · rw [if_neg hj, if_neg (by omega)]

/-! Coverage of the grid-stride loop: the threads of a launch with T total
threads partition the indices below N by their residue class modulo T. -/

theorem le_of_mem_strideIdxsAux {N T : ℕ} :
    ∀ {fuel i x : ℕ}, x ∈ strideIdxsAux N T fuel i → i ≤ x := by
  intro fuel
  induction fuel with
  | zero => intro i x hx; simp [strideIdxsAux] at hx
  | succ f ih =>
    intro i x hx
    simp only [strideIdxsAux] at hx
    by_cases hc : i < N ∧ 0 < T
    · rw [if_pos hc, List.mem_cons] at hx
      rcases hx with rfl | hx
      · exact le_refl x
      · exact le_trans (by omega) (ih hx)
    · rw [if_neg hc] at hx; simp at hx

theorem nodup_strideIdxsAux {N T : ℕ} :
    ∀ (fuel i : ℕ), (strideIdxsAux N T fuel i).Nodup := by
  intro fuel
  induction fuel with
  | zero => intro i; simp [strideIdxsAux]
  | succ f ih =>
    intro i
    simp only [strideIdxsAux]
    by_cases hc : i < N ∧ 0 < T
    · rw [if_pos hc]
      refine List.Nodup.cons (fun hmem => ?_) (ih (i + T))
      have := le_of_mem_strideIdxsAux hmem
      omega
    · rw [if_neg hc]; exact List.nodup_nil

theorem nodup_strideIdxs (N T i : ℕ) : (strideIdxs N T i).Nodup :=
  nodup_strideIdxsAux _ _

theorem mem_strideIdxsAux {N T : ℕ} (hT : 0 < T) :
    ∀ {fuel i x : ℕ}, N - i ≤ fuel →
      (x ∈ strideIdxsAux N T fuel i ↔ ∃ k, x = i + k * T ∧ x < N) := by
  intro fuel
  induction fuel with
  | zero =>
    intro i x h
    simp only [strideIdxsAux, List.not_mem_nil, false_iff]
    rintro ⟨k, rfl, hx⟩
    omega
  | succ f ih =>
    intro i x h
    simp only [strideIdxsAux]
    by_cases hc : i < N ∧ 0 < T
    · rw [if_pos hc, List.mem_cons, ih (by omega)]
      constructor
      · rintro (rfl | ⟨k, rfl, hx⟩)
        · exact ⟨0, by omega, hc.1⟩
        · exact ⟨k + 1, by ring, hx⟩
      · rintro ⟨k, rfl, hx⟩
        match k with
        | 0 => left; omega
        | k + 1 =>
          right
          exact ⟨k, by ring, hx⟩
    · rw [if_neg hc]
      simp only [List.not_mem_nil, false_iff]
      rintro ⟨k, rfl, hx⟩
      omega

theorem mem_strideIdxs {N T i x : ℕ} (hT : 0 < T) :
    x ∈ strideIdxs N T i ↔ ∃ k, x = i + k * T ∧ x < N :=
  mem_strideIdxsAux hT (le_refl _)

theorem mem_strideIdxs_mod {N T t x : ℕ} (hT : 0 < T) (ht : t < T) :
    x ∈ strideIdxs N T t ↔ x < N ∧ x % T = t := by
  rw [mem_strideIdxs hT]
  constructor
  · rintro ⟨k, rfl, hx⟩
    refine ⟨hx, ?_⟩
    rw [Nat.add_mul_mod_self_right]
    exact Nat.mod_eq_of_lt ht
  · rintro ⟨hx, hmod⟩
    refine ⟨x / T, ?_, hx⟩
    have hdm := Nat.div_add_mod x T
    rw [Nat.mul_comm] at hdm
    omega

theorem strideIdxs_perm_filter {N T t : ℕ} (hT : 0 < T) (ht : t < T) :
    (strideIdxs N T t).Perm
      ((List.range N).filter (fun x => decide (x % T = t))) := by
  rw [List.perm_ext_iff_of_nodup (nodup_strideIdxs N T t)
    (List.Nodup.filter _ (List.nodup_range N))]
  intro x
  rw [mem_strideIdxs_mod hT ht, List.mem_filter, List.mem_range,
    decide_eq_true_eq]

theorem strideIdxs_countP {N T t : ℕ} (q : ℕ → Bool) (hT : 0 < T) (ht : t < T) :
    (strideIdxs N T t).countP q =
      (List.range N).countP (fun x => q x && decide (x % T = t)) := by
  rw [(strideIdxs_perm_filter hT ht).countP_eq, List.countP_filter]

theorem sum_countP_mod_fiber {T : ℕ} (q : ℕ → Bool) :
    ∀ (l : List ℕ), (∀ x, x ∈ l → x % T < T) →
      ∑ t ∈ Finset.range T, l.countP (fun x => q x && decide (x % T = t)) =
        l.countP q := by
  intro l
  induction l with
  | nil => intro _; simp
  | cons a l ih =>
    intro hmem
    simp only [List.countP_cons]
    rw [Finset.sum_add_distrib, ih (fun x hx => hmem x (by simp [hx]))]
    congr 1
    by_cases hqa : q a = true
    · have h2 : (∑ t ∈ Finset.range T,
            if (q a && decide (a % T = t)) = true then (1 : ℕ) else 0) =
          ∑ t ∈ Finset.range T, if a % T = t then 1 else 0 :=
        Finset.sum_congr rfl (fun t _ => by simp [hqa])
      rw [h2, Finset.sum_ite_eq]
      simp [hqa, Finset.mem_range.mpr (hmem a (by simp))]
    · have h2 : (∑ t ∈ Finset.range T,
            if (q a && decide (a % T = t)) = true then (1 : ℕ) else 0) =
          ∑ t ∈ Finset.range T, 0 :=
        Finset.sum_congr rfl (fun t _ => by simp [hqa])
      rw [h2]
      simp [hqa]

/-- Partition property of the grid-stride loop: summed over the T threads of
a launch, the per-thread counts over strideIdxs cover every index below N
exactly once. -/
theorem strideIdxs_coverage {N T : ℕ} (q : ℕ → Bool) (hT : 0 < T) :
    ∑ t ∈ Finset.range T, (strideIdxs N T t).countP q =
      (List.range N).countP q := by
  have h1 : ∀ t ∈ Finset.range T, (strideIdxs N T t).countP q =
      (List.range N).countP (fun x => q x && decide (x % T = t)) := by
    intro t ht
    exact strideIdxs_countP q hT (Finset.mem_range.mp ht)
  rw [Finset.sum_congr rfl h1]
  exact sum_countP_mod_fiber q _ (fun x _ => Nat.mod_lt x hT)

/-! Decomposition of a grid-stride index set into the batch structure of the
optimized kernel, and transfer of per-value counts across the prefetch
sentinel. -/

theorem getD_replicate_zero (n i : ℕ) : (List.replicate n (0 : ℤ)).getD i 0 = 0 := by
  rw [List.getD_eq_getElem?_getD, List.getElem?_replicate]
  by_cases h : i < n <;> simp [h]

theorem toNat_eq_iff {v : ℤ} {j : ℕ} (h : 0 ≤ v) : v.toNat = j ↔ v = (j : ℤ) := by
  omega

theorem strideIdxs_batch_decomp {N T : ℕ} (hT : 0 < T) :
    ∀ (E base : ℕ),
      strideIdxs N T base =
        (((List.range E).map (fun i => base + i * T)).filter
          (fun x => decide (x < N)))
          ++ strideIdxs N T (base + T * E) := by
  intro E
  induction E with
  | zero => intro base; simp
  | succ E ih =>
    intro base
    by_cases hb : base < N
    · have hmap : (List.range (E + 1)).map (fun i => base + i * T) =
          base :: (List.range E).map (fun i => (base + T) + i * T) := by
        rw [List.range_succ_eq_map, List.map_cons, List.map_map]
        refine congrArg₂ _ (by simp) ?_
        apply List.map_congr_left
        intro i _
        show base + (i + 1) * T = base + T + i * T
        ring
      rw [strideIdxs_unfold N T base, if_pos ⟨hb, hT⟩, hmap,
        List.filter_cons_of_pos (by simpa using hb), ih (base + T),
        List.cons_append]
      have harg : base + T + T * E = base + T * (E + 1) := by ring
      rw [harg]
    · have hbase : ∀ x, x ∈ (List.range (E + 1)).map (fun i => base + i * T) →
          ¬(decide (x < N) = true) := by
        intro x hx
        simp only [List.mem_map, List.mem_range] at hx
        obtain ⟨i, _, rfl⟩ := hx
        simp only [decide_eq_true_eq]
        omega
      rw [strideIdxs_unfold N T base, if_neg (fun hc => hb hc.1),
        List.filter_eq_nil_iff.mpr hbase,
        strideIdxs_unfold N T (base + T * (E + 1)),
        if_neg (fun hc => hb (by omega))]
      rfl

/-- Counting transfer from the prefetched batches of an optimized-kernel
thread to its grid-stride index set: any predicate that rejects the sentinel
-1 counts the same values in both, so slots past the end of the input never
contribute. -/
theorem optThreadVals_countP {input : ℕ → ℤ} {N T : ℕ} (p : ℤ → Bool)
    (hp : p (-1) = false) (hT : 0 < T) :
    ∀ (base : ℕ), (optThreadVals input N T base).countP p =
      (strideIdxs N T base).countP (fun i => p (input i)) := by
  suffices h : ∀ fuel base, N - base ≤ fuel →
      (optThreadValsAux input N T fuel base).countP p =
        (strideIdxs N T base).countP (fun i => p (input i)) by
    intro base
    exact h _ base (le_refl _)
  intro fuel
  induction fuel with
  | zero =>
    intro base h
    rw [strideIdxs_unfold, if_neg (by rintro ⟨h1, h2⟩; omega)]
    rfl
  | succ f ih =>
    intro base h
    simp only [optThreadValsAux]
    by_cases hb : base < N
    · have hE : 0 < T * elementsPerThread := by
        simp only [elementsPerThread]; omega
      rw [if_pos ⟨hb, hT⟩, List.countP_append,
        strideIdxs_batch_decomp hT elementsPerThread base, List.countP_append,
        ih (base + T * elementsPerThread) (by omega)]
      congr 1
      rw [batchVals, List.countP_map, List.countP_filter, List.countP_map]
      apply List.countP_congr
      intro i _
      by_cases hlt : base + i * T < N
      · simp [Function.comp, hlt]
      · simp [Function.comp, hlt, hp]
    · rw [if_neg (fun hc => hb hc.1), strideIdxs_unfold,
        if_neg (fun hc => hb hc.1)]
      rfl

theorem list_map_range_sum (f : ℕ → ℤ) :
    ∀ n, ((List.range n).map f).sum = ∑ i ∈ Finset.range n, f i := by
  intro n
  induction n with
  | zero => simp
  | succ n ih =>
    rw [List.range_succ, List.map_append, List.sum_append,
      Finset.sum_range_succ, ih]
    simp

/-- Concatenated over the blocks of a launch, the per-block thread id lists
cover the global thread ids below gridDim * blockDim exactly once. -/
theorem sum_blockThreads (f : ℕ → ℤ) :
    ∀ (G bd : ℕ),
      ((List.range G).map (fun bid => ((blockThreads bd bid).map f).sum)).sum =
        ((List.range (G * bd)).map f).sum := by
  intro G
  induction G with
  | zero => simp
  | succ G ih =>
    intro bd
    rw [List.range_succ, List.map_append, List.sum_append, ih]
    have hGb : (G + 1) * bd = G * bd + bd := by ring
    rw [hGb, List.range_add, List.map_append, List.sum_append, List.map_map]
    simp [blockThreads, List.map_map, Function.comp]

theorem sum_map_natCast (c : ℕ → ℕ) (l : List ℕ) :
    (l.map (fun x => ((c x : ℕ) : ℤ))).sum = (((l.map c).sum : ℕ) : ℤ) := by
  induction l with
  | nil => simp
  | cons a l ih => simp [ih]

/-! Per-thread accounting of the optimized kernel: the register tier takes
exactly the in-range values below 32, the shared-atomic tier exactly the
in-range values at or above 32, and their merge restores the full in-range
count per bin. -/

/-- Count, among vals, of in-range values equal to bin j that the register
tier handles (value < 32). -/
def cntLoc (numBins j : ℕ) (vals : List ℤ) : ℕ :=
  vals.countP (fun v => inRangeVal numBins v && decide (v < 32) && decide (v = (j : ℤ)))

/-- Count, among vals, of in-range values equal to bin j that go through the
shared-atomic tier (value at least 32). -/
def cntShr (numBins j : ℕ) (vals : List ℤ) : ℕ :=
  vals.countP (fun v => inRangeVal numBins v && !(decide (v < 32)) && decide (v = (j : ℤ)))

/-- Count, among vals, of in-range values equal to bin j. -/
def cntAll (numBins j : ℕ) (vals : List ℤ) : ℕ :=
  vals.countP (fun v => inRangeVal numBins v && decide (v = (j : ℤ)))

theorem cntAll_eq_cntLoc_add_cntShr (numBins j : ℕ) (vals : List ℤ) :
    cntAll numBins j vals = cntLoc numBins j vals + cntShr numBins j vals := by
  induction vals with
  | nil => rfl
  | cons v vals ih =>
    simp only [cntAll, cntLoc, cntShr, List.countP_cons] at *
    have hsplit : (if (inRangeVal numBins v && decide (v = (j : ℤ))) = true
          then 1 else 0) =
        (if (inRangeVal numBins v && decide (v < 32) && decide (v = (j : ℤ))) = true
          then 1 else 0) +
        (if (inRangeVal numBins v && !(decide (v < 32)) && decide (v = (j : ℤ))) = true
          then (1 : ℕ) else 0) := by
      cases hin : inRangeVal numBins v <;> cases h32 : decide (v < 32) <;>
        cases hj : decide (v = (j : ℤ)) <;> simp
    omega

theorem cntAll_eq_zero_of_ge {numBins j : ℕ} (h : numBins ≤ j) (vals : List ℤ) :
    cntAll numBins j vals = 0 := by
  rw [cntAll, List.countP_eq_zero]
  intro v _
  simp only [inRangeVal, Bool.and_eq_true, decide_eq_true_eq]
  rintro ⟨⟨h0, hlt⟩, rfl⟩
  omega

theorem cntLoc_cons (numBins j : ℕ) (v : ℤ) (vals : List ℤ) :
    cntLoc numBins j (v :: vals) = cntLoc numBins j vals +
      if (inRangeVal numBins v && decide (v < 32) && decide (v = (j : ℤ))) = true
      then 1 else 0 := by
  simp [cntLoc, List.countP_cons]

theorem cntShr_cons (numBins j : ℕ) (v : ℤ) (vals : List ℤ) :
    cntShr numBins j (v :: vals) = cntShr numBins j vals +
      if (inRangeVal numBins v && !(decide (v < 32)) && decide (v = (j : ℤ))) = true
      then 1 else 0 := by
  simp [cntShr, List.countP_cons]

theorem optClassifyFold_spec (numBins : ℕ) (vals : List ℤ) :
    ∀ (lh sh : List ℤ), lh.length = 32 → sh.length = numBins →
    ∃ lh' sh', vals.foldlM (optClassify numBins) (lh, sh) = some (lh', sh') ∧
      lh'.length = 32 ∧ sh'.length = numBins ∧
      (∀ j, lh'.getD j 0 = lh.getD j 0 + (cntLoc numBins j vals : ℤ)) ∧
      (∀ j, sh'.getD j 0 = sh.getD j 0 + (cntShr numBins j vals : ℤ)) := by
  induction vals with
  | nil =>
    intro lh sh hlh hsh
    exact ⟨lh, sh, rfl, hlh, hsh, by simp [cntLoc], by simp [cntShr]⟩
  | cons v vals ih =>
    intro lh sh hlh hsh
    by_cases hin : inRangeVal numBins v = true
    · have h0v : 0 ≤ v := by
        have := hin; simp only [inRangeVal, Bool.and_eq_true, decide_eq_true_eq] at this
        exact this.1
      have hvB : v < (numBins : ℤ) := by
        have := hin; simp only [inRangeVal, Bool.and_eq_true, decide_eq_true_eq] at this
        exact this.2
      by_cases h32 : v < 32
      · -- register tier
        have hbound : v.toNat < lh.length := by rw [hlh]; omega
        obtain ⟨lh', sh', e, hlh', hsh', specL, specS⟩ :=
          ih (lh.set v.toNat (lh.getD v.toNat 0 + 1)) sh (by simp [hlh]) hsh
        refine ⟨lh', sh', ?_, hlh', hsh', ?_, ?_⟩
        · simp only [List.foldlM_cons, optClassify, if_pos hin, if_pos h32,
            Option.bind_eq_bind, pure, Option.some_bind]
          exact e
        · intro j
          rw [specL j, cntLoc_cons]
          by_cases hj : v.toNat = j
          · have hvj : v = (j : ℤ) := (toNat_eq_iff h0v).mp hj
            have hp : (inRangeVal numBins v && decide (v < 32) &&
                decide (v = (j : ℤ))) = true := by
              have d1 : decide (v < 32) = true := by simp [h32]
              have d2 : decide (v = (j : ℤ)) = true := by simp [hvj]
              rw [hin, d1, d2]
              rfl
            rw [hp, if_pos rfl]
            subst hj
            rw [getD_set_self _ _ _ hbound]
            push_cast
            ring
          · have hvj : ¬(v = (j : ℤ)) := fun hc => hj ((toNat_eq_iff h0v).mpr hc)
            have hp : (inRangeVal numBins v && decide (v < 32) &&
                decide (v = (j : ℤ))) = false := by simp [hvj]
            rw [hp, getD_set_ne _ _ _ _ hj]
            simp
        · intro j
          rw [specS j, cntShr_cons]
          have hp : (inRangeVal numBins v && !(decide (v < 32)) &&
              decide (v = (j : ℤ))) = false := by simp [h32]
          rw [hp]
          simp
      · -- shared-atomic tier
        have hbound : v.toNat < sh.length := by rw [hsh]; omega
        obtain ⟨sh1, e1, len1, spec1⟩ := atomicAdd_spec 1 hbound
        obtain ⟨lh', sh', e, hlh', hsh', specL, specS⟩ :=
          ih lh sh1 hlh (by rw [len1, hsh])
        refine ⟨lh', sh', ?_, hlh', hsh', ?_, ?_⟩
        · simp only [List.foldlM_cons, optClassify, if_pos hin, if_neg h32,
            Option.bind_eq_bind, e1, Option.some_bind, pure, Option.some_bind]
          exact e
        · intro j
          rw [specL j, cntLoc_cons]
          have hp : (inRangeVal numBins v && decide (v < 32) &&
              decide (v = (j : ℤ))) = false := by simp [h32]
          rw [hp]
          simp
        · intro j
          rw [specS j, spec1 j, cntShr_cons]
          by_cases hj : v.toNat = j
          · have hvj : v = (j : ℤ) := (toNat_eq_iff h0v).mp hj
            have hp : (inRangeVal numBins v && !(decide (v < 32)) &&
                decide (v = (j : ℤ))) = true := by
              have d1 : decide (v < 32) = false := by simp [h32]
              have d2 : decide (v = (j : ℤ)) = true := by simp [hvj]
              rw [hin, d1, d2]
              rfl
            rw [hp, if_pos rfl, if_pos hj]
            push_cast
            ring
          · have hvj : ¬(v = (j : ℤ)) := fun hc => hj ((toNat_eq_iff h0v).mpr hc)
            have hp : (inRangeVal numBins v && !(decide (v < 32)) &&
                decide (v = (j : ℤ))) = false := by simp [hvj]
            rw [hp, if_neg hj]
            simp
    · -- dropped value
      obtain ⟨lh', sh', e, hlh', hsh', specL, specS⟩ := ih lh sh hlh hsh
      refine ⟨lh', sh', ?_, hlh', hsh', ?_, ?_⟩
      · simp only [List.foldlM_cons, optClassify, if_neg hin, pure,
          Option.bind_eq_bind, Option.some_bind]
        exact e
      · intro j
        rw [specL j, cntLoc_cons]
        have hp : (inRangeVal numBins v && decide (v < 32) &&
            decide (v = (j : ℤ))) = false := by
          simp only [Bool.not_eq_true] at hin
          simp [hin]
        rw [hp]
        simp
      · intro j
        rw [specS j, cntShr_cons]
        have hp : (inRangeVal numBins v && !(decide (v < 32)) &&
            decide (v = (j : ℤ))) = false := by
          simp only [Bool.not_eq_true] at hin
          simp [hin]
        rw [hp]
        simp

/-- One optimized-kernel thread adds, for every bin j, exactly the number of
in-range processed values equal to j into the shared accumulator, and never
fails: positive register counters only arise for bins below numBins, so the
local-to-shared merge stays in bounds even when numBins < 32. -/
theorem optThreadRun_spec (numBins : ℕ) (vals : List ℤ) (sh : List ℤ)
    (hsh : sh.length = numBins) :
    ∃ sh', optThreadRun numBins vals sh = some sh' ∧ sh'.length = numBins ∧
      ∀ j, sh'.getD j 0 = sh.getD j 0 + (cntAll numBins j vals : ℤ) := by
  obtain ⟨lh', sh1, e1, hlh', hsh1, specL, specS⟩ :=
    optClassifyFold_spec numBins vals (List.replicate 32 0) sh (by simp) hsh
  have hLcnt : ∀ j, lh'.getD j 0 = (cntLoc numBins j vals : ℤ) := by
    intro j
    rw [specL j, getD_replicate_zero, zero_add]
  have hbound : ∀ j, j < 32 → 0 ≤ lh'.getD j 0 ∧
      (0 < lh'.getD j 0 → j < sh1.length) := by
    intro j _
    rw [hLcnt j]
    refine ⟨by positivity, fun hpos => ?_⟩
    have hcnt : 0 < cntLoc numBins j vals := by exact_mod_cast hpos
    rw [cntLoc, List.countP_pos_iff] at hcnt
    obtain ⟨v, _, hv⟩ := hcnt
    simp only [inRangeVal, Bool.and_eq_true, decide_eq_true_eq] at hv
    obtain ⟨⟨⟨h0, hB⟩, _⟩, rfl⟩ := hv
    rw [hsh1]
    omega
  obtain ⟨sh', e2, len2, spec2⟩ :=
    foldlM_condAdd_spec (fun i => lh'.getD i 0) 32 sh1 hbound
  refine ⟨sh', ?_, by rw [len2, hsh1], ?_⟩
  · rw [optThreadRun, e1]
    simp only [Option.bind_eq_bind, Option.some_bind]
    exact e2
  · intro j
    rw [spec2 j, specS j, hsh] at *
    rw [cntAll_eq_cntLoc_add_cntShr]
    by_cases hj : j < 32
    · rw [if_pos hj, hLcnt j]
      push_cast
      ring
    · have hzero : cntLoc numBins j vals = 0 := by
        rw [cntLoc, List.countP_eq_zero]
        intro v _
        simp only [Bool.and_eq_true, decide_eq_true_eq]
        rintro ⟨⟨_, h32⟩, rfl⟩
        omega
      rw [if_neg hj, hzero]
      push_cast
      ring

/-- Accumulated over any list of thread ids, the per-thread contributions of
the optimized kernel add up inside the shared accumulator. -/
theorem optBlockAccum_spec (input : ℕ → ℤ) (N numBins T : ℕ) (gs : List ℕ) :
    ∀ (sh : List ℤ), sh.length = numBins →
    ∃ sh', gs.foldlM
        (fun sh tid => optThreadRun numBins (optThreadVals input N T tid) sh) sh
        = some sh' ∧
      sh'.length = numBins ∧
      ∀ j, sh'.getD j 0 = sh.getD j 0 +
        ((gs.map (fun g =>
          (cntAll numBins j (optThreadVals input N T g) : ℤ))).sum) := by
  induction gs with
  | nil =>
    intro sh hsh
    exact ⟨sh, rfl, hsh, by simp⟩
  | cons g gs ih =>
    intro sh hsh
    obtain ⟨sh1, e1, len1, spec1⟩ :=
      optThreadRun_spec numBins (optThreadVals input N T g) sh hsh
    obtain ⟨sh', e2, len2, spec2⟩ := ih sh1 len1
    refine ⟨sh', ?_, len2, ?_⟩
    · simp only [List.foldlM_cons, e1, Option.bind_eq_bind, Option.some_bind]
      exact e2
    · intro j
      rw [spec2 j, spec1 j, List.map_cons, List.sum_cons]
      ring

/-- Master functional-correctness lemma for the optimized kernel with an
arbitrary initial global histogram: the launch never fails, preserves the
histogram length, and adds to every bin j exactly the number of in-range
samples equal to j, counted over the whole index range below N (each index is
processed by exactly one thread of one block). -/
theorem computeHistogramOptimized_spec (input : ℕ → ℤ) (N numBins G bd : ℕ)
    (hbd : 0 < bd) (hG : 0 < G) :
    ∀ (histogram : List ℤ), histogram.length = numBins →
    ∃ h, computeHistogramOptimized input N numBins G bd histogram = some h ∧
      h.length = numBins ∧
      ∀ j, h.getD j 0 = histogram.getD j 0 +
        (((List.range N).countP (fun i =>
          inRangeVal numBins (input i) && decide (input i = (j : ℤ)))) : ℤ) := by
  have hT : 0 < bd * G := Nat.mul_pos hbd hG
  -- first: the fold over any list of block ids accumulates block sums
  have hfold : ∀ (bids : List ℕ) (hist : List ℤ), hist.length = numBins →
      ∃ h, bids.foldlM (fun hist bid => do
          let sh ← (blockThreads bd bid).foldlM
            (fun sh tid =>
              optThreadRun numBins (optThreadVals input N (bd * G) tid) sh)
            (List.replicate numBins 0)
          foldSharedToGlobal numBins sh hist) hist = some h ∧
        h.length = numBins ∧
        ∀ j, h.getD j 0 = hist.getD j 0 +
          ((bids.map (fun bid => (((blockThreads bd bid).map (fun g =>
            (cntAll numBins j (optThreadVals input N (bd * G) g) : ℤ))).sum))).sum) := by
    intro bids
    induction bids with
    | nil =>
      intro hist hlen
      exact ⟨hist, rfl, hlen, by simp⟩
    | cons bid bids ih =>
      intro hist hlen
      obtain ⟨sh', e1, len1, spec1⟩ :=
        optBlockAccum_spec input N numBins (bd * G) (blockThreads bd bid)
          (List.replicate numBins 0) (by simp)
      have hsh' : ∀ j, sh'.getD j 0 = ((blockThreads bd bid).map (fun g =>
          (cntAll numBins j (optThreadVals input N (bd * G) g) : ℤ))).sum := by
        intro j
        rw [spec1 j, getD_replicate_zero, zero_add]
      have hbound : ∀ j, j < numBins → 0 ≤ sh'.getD j 0 ∧
          (0 < sh'.getD j 0 → j < hist.length) := by
        intro j hj
        refine ⟨?_, fun _ => by rw [hlen]; exact hj⟩
        rw [hsh' j]
        apply List.sum_nonneg
        intro x hx
        simp only [List.mem_map] at hx
        obtain ⟨g, _, rfl⟩ := hx
        positivity
      obtain ⟨hist1, e2, len2, spec2⟩ :=
        foldlM_condAdd_spec (fun i => sh'.getD i 0) numBins hist hbound
      obtain ⟨h, e3, len3, spec3⟩ := ih hist1 (by rw [len2, hlen])
      refine ⟨h, ?_, len3, ?_⟩
      · simp only [List.foldlM_cons, e1, Option.bind_eq_bind, Option.some_bind]
        rw [show foldSharedToGlobal numBins sh' hist = some hist1 from e2]
        simp only [Option.some_bind]
        exact e3
      · intro j
        rw [spec3 j, spec2 j, List.map_cons, List.sum_cons]
        by_cases hj : j < numBins
        · rw [if_pos hj, hsh' j]
          ring
        · rw [if_neg hj]
          have hz : ((blockThreads bd bid).map (fun g =>
              (cntAll numBins j (optThreadVals input N (bd * G) g) : ℤ))).sum = 0 := by
            have : ∀ x ∈ (blockThreads bd bid).map (fun g =>
                (cntAll numBins j (optThreadVals input N (bd * G) g) : ℤ)), x = 0 := by
              intro x hx
              simp only [List.mem_map] at hx
              obtain ⟨g, _, rfl⟩ := hx
              rw [cntAll_eq_zero_of_ge (by omega)]
              rfl
            exact List.sum_eq_zero this
          rw [hz]
          ring
  intro histogram hlen0
  obtain ⟨h, e, hlenh, hspec⟩ := hfold (List.range G) histogram hlen0
  refine ⟨h, e, hlenh, ?_⟩
  intro j
  rw [hspec j]
  congr 1
  -- collapse the per-block, per-thread sums into the global coverage count
  have hcnt : ∀ g : ℕ, (cntAll numBins j (optThreadVals input N (bd * G) g) : ℤ) =
      ((strideIdxs N (bd * G) g).countP (fun i =>
        inRangeVal numBins (input i) && decide (input i = (j : ℤ))) : ℤ) := by
    intro g
    have hp : (fun v => inRangeVal numBins v && decide (v = (j : ℤ))) (-1) = false := by
      simp [inRangeVal]
    rw [cntAll, optThreadVals_countP _ hp hT]
  have hstep1 : ((List.range G).map (fun bid => (((blockThreads bd bid).map (fun g =>
      (cntAll numBins j (optThreadVals input N (bd * G) g) : ℤ))).sum))).sum =
      ((List.range (G * bd)).map (fun g =>
        (cntAll numBins j (optThreadVals input N (bd * G) g) : ℤ))).sum :=
    sum_blockThreads _ G bd
  rw [hstep1]
  have hstep2 : ((List.range (G * bd)).map (fun g =>
      (cntAll numBins j (optThreadVals input N (bd * G) g) : ℤ))).sum =
      ∑ g ∈ Finset.range (bd * G), ((strideIdxs N (bd * G) g).countP (fun i =>
        inRangeVal numBins (input i) && decide (input i = (j : ℤ))) : ℤ) := by
    rw [List.map_congr_left (fun g _ => hcnt g), list_map_range_sum,
      Nat.mul_comm G bd]
  rw [hstep2]
  rw [show (∑ g ∈ Finset.range (bd * G), ((strideIdxs N (bd * G) g).countP (fun i =>
      inRangeVal numBins (input i) && decide (input i = (j : ℤ))) : ℤ)) =
      ((∑ g ∈ Finset.range (bd * G), (strideIdxs N (bd * G) g).countP (fun i =>
        inRangeVal numBins (input i) && decide (input i = (j : ℤ))) : ℕ) : ℤ) from
    (Nat.cast_sum _ _).symm]
  rw [strideIdxs_coverage _ hT]

theorem mem_strideIdxs_lt {N T i x : ℕ} (hx : x ∈ strideIdxs N T i) : x < N := by
  suffices h : ∀ fuel i, x ∈ strideIdxsAux N T fuel i → x < N from h _ i hx
  intro fuel
  induction fuel with
  | zero => intro i hi; simp [strideIdxsAux] at hi
  | succ f ih =>
    intro i hi
    simp only [strideIdxsAux] at hi
    by_cases hc : i < N ∧ 0 < T
    · rw [if_pos hc, List.mem_cons] at hi
      rcases hi with rfl | hi
      · exact hc.1
      · exact ih _ hi
    · rw [if_neg hc] at hi; simp at hi

/-- Accumulated over any list of thread ids, the per-thread grid-stride
contributions of the shared-memory kernel add up inside the shared
accumulator; every sample value must be in range, because the kernel indexes
the accumulator with the raw value. -/
theorem sharedThreadAccum_spec (input : ℕ → ℤ) (N numBins T : ℕ)
    (hrange : ∀ i, i < N → (input i).toNat < numBins) (gs : List ℕ) :
    ∀ (sh : List ℤ), sh.length = numBins →
    ∃ sh', gs.foldlM
        (fun sh tid => (strideIdxs N T tid).foldlM
          (fun s i => atomicAdd s (input i).toNat 1) sh) sh = some sh' ∧
      sh'.length = numBins ∧
      ∀ j, sh'.getD j 0 = sh.getD j 0 +
        ((gs.map (fun g => ((strideIdxs N T g).countP
          (fun i => decide ((input i).toNat = j)) : ℤ))).sum) := by
  induction gs with
  | nil =>
    intro sh hsh
    exact ⟨sh, rfl, hsh, by simp⟩
  | cons g gs ih =>
    intro sh hsh
    obtain ⟨sh1, e1, len1, spec1⟩ :=
      foldlM_inc_spec (fun i => (input i).toNat) (strideIdxs N T g) sh
        (fun i hi => by rw [hsh]; exact hrange i (mem_strideIdxs_lt hi))
    obtain ⟨sh', e2, len2, spec2⟩ := ih sh1 (by rw [len1, hsh])
    refine ⟨sh', ?_, len2, ?_⟩
    · simp only [List.foldlM_cons, e1, Option.bind_eq_bind, Option.some_bind]
      exact e2
    · intro j
      rw [spec2 j, spec1 j, List.map_cons, List.sum_cons]
      ring

/-- Master functional-correctness lemma for the shared-memory kernel on
in-range inputs: the launch succeeds and adds to every bin j the number of
samples equal to j. -/
theorem computeHistogramShared_spec (input : ℕ → ℤ) (N numBins G bd : ℕ)
    (hbd : 0 < bd) (hG : 0 < G)
    (hrange : ∀ i, i < N → (input i).toNat < numBins) :
    ∀ (histogram : List ℤ), histogram.length = numBins →
    ∃ h, computeHistogramShared input N numBins G bd histogram = some h ∧
      h.length = numBins ∧
      ∀ j, h.getD j 0 = histogram.getD j 0 +
        (((List.range N).countP (fun i => decide ((input i).toNat = j))) : ℤ) := by
  have hT : 0 < bd * G := Nat.mul_pos hbd hG
  have hfold : ∀ (bids : List ℕ) (hist : List ℤ), hist.length = numBins →
      ∃ h, bids.foldlM (fun hist bid => do
          let sh ← (blockThreads bd bid).foldlM
            (fun sh tid => (strideIdxs N (bd * G) tid).foldlM
              (fun s i => atomicAdd s (input i).toNat 1) sh)
            (List.replicate numBins 0)
          foldSharedToGlobal numBins sh hist) hist = some h ∧
        h.length = numBins ∧
        ∀ j, h.getD j 0 = hist.getD j 0 +
          ((bids.map (fun bid => (((blockThreads bd bid).map (fun g =>
            ((strideIdxs N (bd * G) g).countP
              (fun i => decide ((input i).toNat = j)) : ℤ))).sum))).sum) := by
    intro bids
    induction bids with
    | nil =>
      intro hist hlen
      exact ⟨hist, rfl, hlen, by simp⟩
    | cons bid bids ih =>
      intro hist hlen
      obtain ⟨sh', e1, len1, spec1⟩ :=
        sharedThreadAccum_spec input N numBins (bd * G) hrange
          (blockThreads bd bid) (List.replicate numBins 0) (by simp)
      have hsh' : ∀ j, sh'.getD j 0 = ((blockThreads bd bid).map (fun g =>
          ((strideIdxs N (bd * G) g).countP
            (fun i => decide ((input i).toNat = j)) : ℤ))).sum := by
        intro j
        rw [spec1 j, getD_replicate_zero, zero_add]
      have hbound : ∀ j, j < numBins → 0 ≤ sh'.getD j 0 ∧
          (0 < sh'.getD j 0 → j < hist.length) := by
        intro j hj
        refine ⟨?_, fun _ => by rw [hlen]; exact hj⟩
        rw [hsh' j]
        apply List.sum_nonneg
        intro x hx
        simp only [List.mem_map] at hx
        obtain ⟨g, _, rfl⟩ := hx
        positivity
      obtain ⟨hist1, e2, len2, spec2⟩ :=
        foldlM_condAdd_spec (fun i => sh'.getD i 0) numBins hist hbound
      obtain ⟨h, e3, len3, spec3⟩ := ih hist1 (by rw [len2, hlen])
      refine ⟨h, ?_, len3, ?_⟩
      · simp only [List.foldlM_cons, e1, Option.bind_eq_bind, Option.some_bind]
        rw [show foldSharedToGlobal numBins sh' hist = some hist1 from e2]
        simp only [Option.some_bind]
        exact e3
      · intro j
        rw [spec3 j, spec2 j, List.map_cons, List.sum_cons]
        by_cases hj : j < numBins
        · rw [if_pos hj, hsh' j]
          ring
        · rw [if_neg hj]
          have hz : ((blockThreads bd bid).map (fun g =>
              ((strideIdxs N (bd * G) g).countP
                (fun i => decide ((input i).toNat = j)) : ℤ))).sum = 0 := by
            apply List.sum_eq_zero
            intro x hx
            simp only [List.mem_map] at hx
            obtain ⟨g, _, rfl⟩ := hx
            have hc0 : (strideIdxs N (bd * G) g).countP
                (fun i => decide ((input i).toNat = j)) = 0 := by
              rw [List.countP_eq_zero]
              intro i hi
              simp only [decide_eq_true_eq]
              have := hrange i (mem_strideIdxs_lt hi)
              omega
            rw [hc0]
            rfl
          rw [hz]
          ring
  intro histogram hlen0
  obtain ⟨h, e, hlenh, hspec⟩ := hfold (List.range G) histogram hlen0
  refine ⟨h, e, hlenh, ?_⟩
  intro j
  rw [hspec j]
  congr 1
  rw [sum_blockThreads (fun g => ((strideIdxs N (bd * G) g).countP
    (fun i => decide ((input i).toNat = j)) : ℤ)) G bd]
  rw [list_map_range_sum, Nat.mul_comm G bd]
  rw [show (∑ g ∈ Finset.range (bd * G), ((strideIdxs N (bd * G) g).countP
      (fun i => decide ((input i).toNat = j)) : ℤ)) =
      ((∑ g ∈ Finset.range (bd * G), (strideIdxs N (bd * G) g).countP
        (fun i => decide ((input i).toNat = j)) : ℕ) : ℤ) from
    (Nat.cast_sum _ _).symm]
  rw [strideIdxs_coverage _ hT]

/-- Master lemma for the CPU reference counter on in-range inputs: one
sequential pass filling bin j with the number of samples equal to j. -/
theorem computeHistogramCPU_spec (input : ℕ → ℤ) (N numBins : ℕ)
    (hrange : ∀ i, i < N → (input i).toNat < numBins) :
    ∃ h, computeHistogramCPU input N numBins = some h ∧
      h.length = numBins ∧
      ∀ j, h.getD j 0 =
        (((List.range N).countP (fun i => decide ((input i).toNat = j))) : ℤ) := by
  obtain ⟨h, e, hlen, hspec⟩ :=
    foldlM_inc_spec (fun i => (input i).toNat) (List.range N)
      (List.replicate numBins 0)
      (fun i hi => by
        simp only [List.length_replicate]
        exact hrange i (List.mem_range.mp hi))
  refine ⟨h, e, by simpa using hlen, ?_⟩
  intro j
  rw [hspec j, getD_replicate_zero, zero_add]

/-- Master lemma for the naive kernel launched with at least one thread per
sample (T at least N) on in-range inputs. -/
theorem computeHistogramNaive_spec (input : ℕ → ℤ) (N numBins T : ℕ)
    (hT : N ≤ T) (hrange : ∀ i, i < N → (input i).toNat < numBins) :
    ∀ (histogram : List ℤ), histogram.length = numBins →
    ∃ h, computeHistogramNaive input N numBins T histogram = some h ∧
      h.length = numBins ∧
      ∀ j, h.getD j 0 = histogram.getD j 0 +
        (((List.range N).countP (fun i => decide ((input i).toNat = j))) : ℤ) := by
  intro histogram hlen
  obtain ⟨h, e, hlenh, hspec⟩ :=
    foldlM_inc_spec (fun i => (input i).toNat) (List.range N) histogram
      (fun i hi => by rw [hlen]; exact hrange i (List.mem_range.mp hi))
  refine ⟨h, ?_, by rw [hlenh, hlen], hspec⟩
  rw [computeHistogramNaive, show T = N + (T - N) by omega, List.range_add,
    List.foldlM_append]
  have hfirst : (List.range N).foldlM
      (fun hist idx => if idx < N then atomicAdd hist (input idx).toNat 1
        else pure hist) histogram = some h := by
    rw [foldlM_congr_mem (g := fun hist idx => atomicAdd hist (input idx).toNat 1)
      (fun b a ha => if_pos (List.mem_range.mp ha))]
    exact e
  rw [hfirst]
  simp only [Option.bind_eq_bind, Option.some_bind]
  rw [foldlM_congr_mem (g := fun hist _ => pure hist) ?_]
  · exact foldlM_pure_const _ h
  · intro b a ha
    simp only [List.mem_map, List.mem_range] at ha
    obtain ⟨i, _, rfl⟩ := ha
    rw [if_neg (by omega)]

/-! Bridges between the per-kernel counting forms and the reference
histogram. -/

theorem refHist_length (input : ℕ → ℤ) (N numBins : ℕ) :
    (refHist input N numBins).length = numBins := by
  simp [refHist]

theorem refHist_getD {input : ℕ → ℤ} {N numBins j : ℕ} (hj : j < numBins) :
    (refHist input N numBins).getD j 0 =
      (((List.range N).countP (fun i => decide (input i = (j : ℤ)))) : ℤ) := by
  rw [refHist, List.getD_eq_getElem?_getD, List.getElem?_map,
    List.getElem?_range hj]
  rfl

theorem refHist_getD_oob {input : ℕ → ℤ} {N numBins j : ℕ} (hj : numBins ≤ j) :
    (refHist input N numBins).getD j 0 = 0 := by
  rw [List.getD_eq_default]
  rw [refHist_length]
  exact hj

theorem list_eq_of_getD {l1 l2 : List ℤ} (hlen : l1.length = l2.length)
    (h : ∀ j, l1.getD j 0 = l2.getD j 0) : l1 = l2 := by
  apply List.ext_getElem hlen
  intro i h1 h2
  have hthis := h i
  rw [List.getD_eq_getElem?_getD, List.getD_eq_getElem?_getD,
    List.getElem?_eq_getElem h1, List.getElem?_eq_getElem h2] at hthis
  simpa using hthis

theorem countP_toNat_eq_int {input : ℕ → ℤ} {N j : ℕ}
    (h0 : ∀ i, i < N → 0 ≤ input i) :
    (List.range N).countP (fun i => decide ((input i).toNat = j)) =
      (List.range N).countP (fun i => decide (input i = (j : ℤ))) := by
  apply List.countP_congr
  intro i hi
  simp only [decide_eq_true_eq]
  exact toNat_eq_iff (h0 i (List.mem_range.mp hi))

theorem countP_inRange_eq_int {input : ℕ → ℤ} {N numBins j : ℕ}
    (hj : j < numBins) :
    (List.range N).countP
        (fun i => inRangeVal numBins (input i) && decide (input i = (j : ℤ))) =
      (List.range N).countP (fun i => decide (input i = (j : ℤ))) := by
  apply List.countP_congr
  intro i _
  simp only [Bool.and_eq_true, decide_eq_true_eq, inRangeVal]
  constructor
  · rintro ⟨_, hv⟩; exact hv
  · intro hv
    exact ⟨⟨by rw [hv]; positivity, by rw [hv]; exact_mod_cast hj⟩, hv⟩

theorem list_sum_eq_sum_getD (l : List ℤ) :
    l.sum = ∑ j ∈ Finset.range l.length, l.getD j 0 := by
  induction l with
  | nil => simp
  | cons a l ih =>
    rw [List.sum_cons, List.length_cons, Finset.sum_range_succ', ih]
    simp
    ring

/-- Summed over the bins below numBins, the per-bin in-range counts add up to
the total number of in-range samples: every in-range value lands in exactly
one bin. -/
theorem sum_countP_bins (w : ℕ → ℤ) (numBins : ℕ) :
    ∀ (l : List ℕ),
      ∑ j ∈ Finset.range numBins, l.countP
        (fun i => inRangeVal numBins (w i) && decide (w i = (j : ℤ))) =
      l.countP (fun i => inRangeVal numBins (w i)) := by
  intro l
  induction l with
  | nil => simp
  | cons a l ih =>
    simp only [List.countP_cons]
    rw [Finset.sum_add_distrib, ih]
    congr 1
    by_cases hin : inRangeVal numBins (w a) = true
    · have h0 : 0 ≤ w a := by
        have := hin
        simp only [inRangeVal, Bool.and_eq_true, decide_eq_true_eq] at this
        exact this.1
      have hB : w a < (numBins : ℤ) := by
        have := hin
        simp only [inRangeVal, Bool.and_eq_true, decide_eq_true_eq] at this
        exact this.2
      have h2 : (∑ j ∈ Finset.range numBins,
          if (inRangeVal numBins (w a) && decide (w a = (j : ℤ))) = true
          then (1 : ℕ) else 0) =
          ∑ j ∈ Finset.range numBins, if (w a).toNat = j then 1 else 0 :=
        Finset.sum_congr rfl (fun j _ => by
          simp only [hin, Bool.true_and, decide_eq_true_eq]
          exact if_congr (Iff.symm (toNat_eq_iff h0)) rfl rfl)
      rw [h2, Finset.sum_ite_eq]
      rw [if_pos (Finset.mem_range.mpr (by omega)), if_pos hin]
    · have hin' : inRangeVal numBins (w a) = false := by
        simpa using hin
      have h2 : (∑ j ∈ Finset.range numBins,
          if (inRangeVal numBins (w a) && decide (w a = (j : ℤ))) = true
          then (1 : ℕ) else 0) = ∑ j ∈ Finset.range numBins, 0 :=
        Finset.sum_congr rfl (fun j _ => by simp [hin'])
      rw [h2]
      simp [hin']

theorem gridSize_of_N_zero (numSMs : ℕ) : solution.gridSize numSMs 0 = 0 := by
  rw [solution.gridSize]
  have hmax : solution.maxGridSize 0 = 0 := by
    rw [solution.maxGridSize]
    simp [solution.blockSize]
  rw [hmax]
  split
  · rfl
  · omega

theorem gridSize_pos {numSMs N : ℕ} (hS : 0 < numSMs) (hN : 0 < N) :
    0 < solution.gridSize numSMs N := by
  rw [solution.gridSize, solution.gridSizeOccupancy, solution.maxGridSize,
    solution.blockSize]
  split <;> omega

/-! Claim theorems. -/

/-- Independent formalization of rounding-up division: quotient plus one
extra unit exactly when the division is not exact. -/
def roundUpDiv (a b : ℕ) : ℕ := a / b + if a % b = 0 then 0 else 1

/-- C5: for every N and every device execution-unit count, the launch
planner's chosen grid size equals the minimum of (a) the occupancy target,
the rounded-up quotient of execution-unit count times the saturation
multiplier 2048 by the threads-per-unit constant, and (b) the work-covering
bound, the rounded-up quotient of N by threads-per-unit times the unroll
factor 12; threads-per-unit is the fixed constant 1024 and the unroll factor
is 12. -/
theorem gridSize_is_min_of_ceils :
    ∀ (N numSMs : ℕ),
      solution.gridSize numSMs N =
        min (roundUpDiv (numSMs * 2048) solution.blockSize)
          (roundUpDiv N (solution.blockSize * 12)) ∧
      solution.blockSize = 1024 ∧ elementsPerThread = 12 := by
  intro N numSMs
  refine ⟨?_, rfl, rfl⟩
  rw [solution.gridSize, solution.gridSizeOccupancy, solution.maxGridSize,
    roundUpDiv, roundUpDiv, solution.blockSize, Nat.min_def]
  norm_num
  split_ifs <;> omega

/-- C6: for every bin count B, calling compute with N = 0 writes to the
output file a histogram of length B in which every bin is zero (the planner
launches zero blocks and the memset zeros survive). -/
theorem compute_N_zero_all_zero :
    ∀ (fs : String → Option (List ℤ)) (tmpDir inputPath : String)
      (input : ℕ → ℤ) (B numSMs : ℕ),
      (solution.compute fs tmpDir inputPath input 0 B numSMs).2
          (solution.solPath tmpDir) = some (List.replicate B 0) ∧
      (List.replicate B (0 : ℤ)).length = B := by
  intro fs tmpDir inputPath input B numSMs
  have hc : solution.computeContents input 0 B numSMs = List.replicate B 0 := by
    rw [solution.computeContents, gridSize_of_N_zero]
    rfl
  constructor
  · show (if solution.solPath tmpDir = solution.solPath tmpDir
        then some (solution.computeContents input 0 B numSMs)
        else fs (solution.solPath tmpDir)) = some (List.replicate B 0)
    rw [if_pos rfl, hc]
  · simp

/-- C7: the harness process exits with code 0 on every run, success or
handled failure, and every handled failure (missing arguments, caught
exception, or histogram mismatch) prints -1 to standard output and exactly
one diagnostic line to standard error before the clean exit. -/
theorem testerMain_exit_contract :
    ∀ (argc : ℕ) (excMsg : Option String) (B : ℕ)
      (solHist studHist : List ℤ) (progress : List String) (ms : ℕ),
      (testerMain argc excMsg B solHist studHist progress ms).exitCode = 0 ∧
      (isHandledFailure argc excMsg B solHist studHist = true →
        "-1" ∈ (testerMain argc excMsg B solHist studHist progress ms).stdoutLines ∧
        ∃ m, (testerMain argc excMsg B solHist studHist progress ms).stderrLines
          = [m]) := by
  intro argc excMsg B solHist studHist progress ms
  rw [testerMain.eq_def]
  by_cases hargc : argc < 3
  · rw [if_pos hargc]
    exact ⟨rfl, fun _ => ⟨by simp [terminateGracefully], ⟨_, rfl⟩⟩⟩
  · rw [if_neg hargc]
    match excMsg with
    | some m =>
      exact ⟨rfl, fun _ => ⟨by simp [terminateGracefully], ⟨_, rfl⟩⟩⟩
    | none =>
      match hm : firstMismatch solHist studHist B with
      | some (i, e, g) =>
        exact ⟨rfl, fun _ => ⟨by simp [terminateGracefully], ⟨_, rfl⟩⟩⟩
      | none =>
        refine ⟨rfl, fun hfail => ?_⟩
        rw [isHandledFailure, hm] at hfail
        simp only [Option.isSome_none, Bool.or_false, Option.isSome_some,
          decide_eq_true_eq] at hfail
        omega

/-- C10: compute returns the constant path student_histogram.dat under the
temporary directory for every argument combination, and a second call
overwrites the first call's output file at that same path. -/
theorem compute_constant_output_path :
    ∀ (fs : String → Option (List ℤ)) (tmpDir ip1 ip2 : String)
      (input1 input2 : ℕ → ℤ) (N1 B1 S1 N2 B2 S2 : ℕ),
      (solution.compute fs tmpDir ip1 input1 N1 B1 S1).1 =
        solution.solPath tmpDir ∧
      (solution.compute fs tmpDir ip1 input1 N1 B1 S1).1 =
        (solution.compute fs tmpDir ip2 input2 N2 B2 S2).1 ∧
      (solution.compute ((solution.compute fs tmpDir ip1 input1 N1 B1 S1).2)
          tmpDir ip2 input2 N2 B2 S2).2 (solution.solPath tmpDir) =
        some (solution.computeContents input2 N2 B2 S2) := by
  intro fs tmpDir ip1 ip2 input1 input2 N1 B1 S1 N2 B2 S2
  refine ⟨rfl, rfl, ?_⟩
  show (if solution.solPath tmpDir = solution.solPath tmpDir
      then some (solution.computeContents input2 N2 B2 S2)
      else _) = _
  rw [if_pos rfl]

/-- C4 (code bug): with bin count B = 12289 the requested dynamic
shared-memory footprint, 49156 bytes, exceeds the 49152-byte per-block
budget of the target device, yet compute performs no budget check and
surfaces no error: it unconditionally returns the output path with a written
histogram file, as the embedded control flow has no failure channel at all. -/
theorem compute_no_budget_check :
    ∀ (fs : String → Option (List ℤ)) (tmpDir inputPath : String)
      (input : ℕ → ℤ),
      49152 < solution.sharedMemSize 12289 ∧
      (solution.compute fs tmpDir inputPath input 4 12289 80).1 =
        solution.solPath tmpDir ∧
      ((solution.compute fs tmpDir inputPath input 4 12289 80).2
        (solution.solPath tmpDir)).isSome = true := by
  intro fs tmpDir inputPath input
  refine ⟨by norm_num [solution.sharedMemSize], rfl, ?_⟩
  show (if solution.solPath tmpDir = solution.solPath tmpDir
      then some (solution.computeContents input 4 12289 80)
      else fs (solution.solPath tmpDir)).isSome = true
  rw [if_pos rfl]
  rfl

/-- C1 (counterexample): on the one-element input with sample value 5 and
bin count 2, the naive kernel performs an out-of-bounds histogram access
(no range filter) while the hierarchical kernel filters the value out and
returns the all-zero histogram, so the four strategies do not all produce
the same histogram on every input. -/
theorem strategies_disagree_out_of_range :
    computeHistogramNaive (fun _ => (5 : ℤ)) 1 2 1 (List.replicate 2 0) = none ∧
    computeHistogramOptimized (fun _ => (5 : ℤ)) 1 2 1 1 (List.replicate 2 0) =
      some [0, 0] ∧
    computeHistogramNaive (fun _ => (5 : ℤ)) 1 2 1 (List.replicate 2 0) ≠
      computeHistogramOptimized (fun _ => (5 : ℤ)) 1 2 1 1 (List.replicate 2 0) :=
  ⟨by decide, by decide, by decide⟩

/-- C1 (amended): on inputs whose samples all lie in [0, B) (and inside the
byte range accepted by the unsigned-char kernels), the naive kernel launched
with one thread per sample, the shared-memory kernel, the hierarchical
kernel (each into a zeroed histogram, with any positive launch geometry) and
the sequential reference counter all produce the same histogram, bin for
bin, namely the reference count histogram. -/
theorem strategies_agree_in_range :
    ∀ (input : ℕ → ℤ) (N B Tn G bd G' bd' : ℕ),
      (∀ i, i < N → 0 ≤ input i ∧ input i < (B : ℤ) ∧ input i < 256) →
      N ≤ Tn → 0 < G → 0 < bd → 0 < G' → 0 < bd' →
      computeHistogramNaive input N B Tn (List.replicate B 0) =
        some (refHist input N B) ∧
      computeHistogramShared input N B G bd (List.replicate B 0) =
        some (refHist input N B) ∧
      computeHistogramOptimized input N B G' bd' (List.replicate B 0) =
        some (refHist input N B) ∧
      computeHistogramCPU input N B = some (refHist input N B) := by
  intro input N B Tn G bd G' bd' hin hTn hG hbd hG' hbd'
  have h0 : ∀ i, i < N → 0 ≤ input i := fun i hi => (hin i hi).1
  have hrange : ∀ i, i < N → (input i).toNat < B := by
    intro i hi
    have := hin i hi
    omega
  -- any histogram whose bin j holds the count of samples with value j is
  -- the reference histogram
  have hres : ∀ (h : List ℤ), h.length = B →
      (∀ j, h.getD j 0 =
        (((List.range N).countP (fun i => decide ((input i).toNat = j))) : ℤ)) →
      h = refHist input N B := by
    intro h hlen hspec
    apply list_eq_of_getD (by rw [hlen, refHist_length])
    intro j
    rw [hspec j]
    by_cases hj : j < B
    · rw [refHist_getD hj, countP_toNat_eq_int h0]
    · rw [refHist_getD_oob (by omega)]
      have hz : (List.range N).countP (fun i => decide ((input i).toNat = j)) = 0 := by
        rw [List.countP_eq_zero]
        intro i hi
        simp only [decide_eq_true_eq]
        have := hrange i (List.mem_range.mp hi)
        omega
      rw [hz]
      rfl
  refine ⟨?_, ?_, ?_, ?_⟩
  · obtain ⟨h, e, hlen, hspec⟩ :=
      computeHistogramNaive_spec input N B Tn hTn hrange (List.replicate B 0)
        (by simp)
    rw [e, hres h (by simpa using hlen)
      (fun j => by rw [hspec j, getD_replicate_zero, zero_add])]
  · obtain ⟨h, e, hlen, hspec⟩ :=
      computeHistogramShared_spec input N B G bd hbd hG hrange
        (List.replicate B 0) (by simp)
    rw [e, hres h hlen
      (fun j => by rw [hspec j, getD_replicate_zero, zero_add])]
  · obtain ⟨h, e, hlen, hspec⟩ :=
      computeHistogramOptimized_spec input N B G' bd' hbd' hG'
        (List.replicate B 0) (by simp)
    rw [e]
    have hspec' : ∀ j, h.getD j 0 =
        (((List.range N).countP (fun i => decide ((input i).toNat = j))) : ℤ) := by
      intro j
      rw [hspec j, getD_replicate_zero, zero_add]
      by_cases hj : j < B
      · rw [countP_inRange_eq_int hj, countP_toNat_eq_int h0]
      · have hz1 : (List.range N).countP (fun i =>
            inRangeVal B (input i) && decide (input i = (j : ℤ))) = 0 := by
          rw [List.countP_eq_zero]
          intro i hi
          simp only [Bool.and_eq_true, decide_eq_true_eq, inRangeVal]
          rintro ⟨⟨_, hlt⟩, hv⟩
          rw [hv] at hlt
          have : j < B := by exact_mod_cast hlt
          omega
        have hz2 : (List.range N).countP (fun i =>
            decide ((input i).toNat = j)) = 0 := by
          rw [List.countP_eq_zero]
          intro i hi
          simp only [decide_eq_true_eq]
          have := hrange i (List.mem_range.mp hi)
          omega
        rw [hz1, hz2]
    rw [hres h hlen hspec']
  · obtain ⟨h, e, hlen, hspec⟩ := computeHistogramCPU_spec input N B hrange
    rw [e, hres h hlen hspec]

/-- C1 (witness): concrete run of the amended equivalence on the spec's own
scenario, N = 10, B = 4, samples [0,1,1,2,3,3,3,0,2,1]. -/
theorem strategies_agree_in_range_witness :
    computeHistogramNaive (fun i => [0,1,1,2,3,3,3,0,2,1].getD i 0) 10 4 10
        (List.replicate 4 0) =
      some (refHist (fun i => [0,1,1,2,3,3,3,0,2,1].getD i 0) 10 4) ∧
    computeHistogramShared (fun i => [0,1,1,2,3,3,3,0,2,1].getD i 0) 10 4 2 2
        (List.replicate 4 0) =
      some (refHist (fun i => [0,1,1,2,3,3,3,0,2,1].getD i 0) 10 4) ∧
    computeHistogramOptimized (fun i => [0,1,1,2,3,3,3,0,2,1].getD i 0) 10 4 1 3
        (List.replicate 4 0) =
      some (refHist (fun i => [0,1,1,2,3,3,3,0,2,1].getD i 0) 10 4) ∧
    computeHistogramCPU (fun i => [0,1,1,2,3,3,3,0,2,1].getD i 0) 10 4 =
      some (refHist (fun i => [0,1,1,2,3,3,3,0,2,1].getD i 0) 10 4) :=
  strategies_agree_in_range (fun i => [0,1,1,2,3,3,3,0,2,1].getD i 0)
    10 4 10 2 2 1 3 (by decide) (by decide) (by decide) (by decide)
    (by decide) (by decide)

/-- C2: for every sample buffer, length N, bin count B and positive
execution-unit count, the histogram written by the production (hierarchical)
compute path sums to exactly the number of samples whose value lies in
[0, B); out-of-range samples are dropped without failing. -/
theorem hierarchical_sum_eq_in_range_count :
    ∀ (input : ℕ → ℤ) (N B numSMs : ℕ), 0 < numSMs →
      (solution.computeContents input N B numSMs).sum =
        (((List.range N).countP (fun i => inRangeVal B (input i))) : ℤ) := by
  intro input N B numSMs hS
  by_cases hN : N = 0
  · subst hN
    rw [solution.computeContents, gridSize_of_N_zero]
    show (List.replicate B (0 : ℤ)).sum = _
    simp
  · obtain ⟨h, e, hlen, hspec⟩ :=
      computeHistogramOptimized_spec input N B (solution.gridSize numSMs N)
        solution.blockSize (by rw [solution.blockSize]; omega)
        (gridSize_pos hS (by omega)) (List.replicate B 0) (by simp)
    rw [solution.computeContents, e]
    show h.sum = _
    rw [list_sum_eq_sum_getD, hlen]
    have hterm : ∀ j ∈ Finset.range B, h.getD j 0 =
        (((List.range N).countP (fun i =>
          inRangeVal B (input i) && decide (input i = (j : ℤ)))) : ℤ) := by
      intro j _
      rw [hspec j, getD_replicate_zero, zero_add]
    rw [Finset.sum_congr rfl hterm, ← Nat.cast_sum,
      sum_countP_bins input B (List.range N)]

/-- C2 (witness): concrete instance with one out-of-range sample: input
[0, 1, 9, 2] with B = 4 has three in-range samples. -/
theorem hierarchical_sum_eq_in_range_count_witness :
    (solution.computeContents (fun i => [0, 1, 9, 2].getD i 0) 4 4 1).sum =
      (((List.range 4).countP
        (fun i => inRangeVal 4 ([0, 1, 9, 2].getD i 0))) : ℤ) :=
  hierarchical_sum_eq_in_range_count (fun i => [0, 1, 9, 2].getD i 0) 4 4 1
    (by decide)

/-- C3 (counterexample): the shared-memory kernel applies no range filter:
on the one-element input with value 5 and bin count 2 it attempts an
out-of-bounds shared-accumulator access and the computation fails instead of
silently excluding the sample. -/
theorem shared_kernel_no_filter_fails :
    computeHistogramShared (fun _ => (5 : ℤ)) 1 2 1 1 (List.replicate 2 0) =
      none := by
  decide

/-- C3 (amended): only the hierarchical kernel filters: for every input,
including inputs with values below 0 or at least B, it never fails and every
bin j counts exactly the in-range samples equal to j, so out-of-range
samples are excluded from every bin; the shared-memory kernel applies no
filter and an out-of-range value makes it access the shared accumulator out
of bounds. -/
theorem hierarchical_filters_out_of_range :
    ∀ (input : ℕ → ℤ) (N B G bd : ℕ), 0 < G → 0 < bd →
      ∃ h, computeHistogramOptimized input N B G bd (List.replicate B 0) =
          some h ∧
        h.length = B ∧
        ∀ j, h.getD j 0 = (((List.range N).countP (fun i =>
          inRangeVal B (input i) && decide (input i = (j : ℤ)))) : ℤ) := by
  intro input N B G bd hG hbd
  obtain ⟨h, e, hlen, hspec⟩ :=
    computeHistogramOptimized_spec input N B G bd hbd hG
      (List.replicate B 0) (by simp)
  exact ⟨h, e, hlen,
    fun j => by rw [hspec j, getD_replicate_zero, zero_add]⟩

/-- C3 (witness): the hierarchical kernel on the same out-of-range input
that breaks the shared kernel: value 5 with B = 2 is dropped cleanly. -/
theorem hierarchical_filters_out_of_range_witness :
    ∃ h, computeHistogramOptimized (fun _ => (5 : ℤ)) 1 2 1 1
        (List.replicate 2 0) = some h ∧
      h.length = 2 ∧
      ∀ j, h.getD j 0 = (((List.range 1).countP (fun i =>
        inRangeVal 2 ((fun _ => (5 : ℤ)) i) &&
          decide ((fun _ => (5 : ℤ)) i = (j : ℤ)))) : ℤ) :=
  hierarchical_filters_out_of_range (fun _ => (5 : ℤ)) 1 2 1 1
    (by decide) (by decide)

/-- C8: the hierarchical kernel accumulates into the global histogram rather
than overwriting it: for every initial histogram state and every bin b below
B, the final value of bin b is its initial value plus the number of in-range
samples equal to b, and a bin receiving a zero count is left untouched (its
per-block shared entry is zero, so the guarded final reduction never writes
it); a correct result from compute therefore relies on the zero
initialization the caller performs. -/
theorem hierarchical_accumulates_into_histogram :
    ∀ (input : ℕ → ℤ) (N B G bd : ℕ) (init : List ℤ) (b : ℕ),
      0 < G → 0 < bd → init.length = B → b < B →
      ∃ h, computeHistogramOptimized input N B G bd init = some h ∧
        h.getD b 0 = init.getD b 0 + (((List.range N).countP (fun i =>
          inRangeVal B (input i) && decide (input i = (b : ℤ)))) : ℤ) ∧
        ((List.range N).countP (fun i =>
          inRangeVal B (input i) && decide (input i = (b : ℤ))) = 0 →
          h.getD b 0 = init.getD b 0) := by
  intro input N B G bd init b hG hbd hinit hb
  obtain ⟨h, e, hlen, hspec⟩ :=
    computeHistogramOptimized_spec input N B G bd hbd hG init hinit
  refine ⟨h, e, hspec b, fun hz => ?_⟩
  rw [hspec b, hz]
  simp

/-- C8 (witness): with a nonzero initial histogram [7, 7], samples all equal
to 1 add on top of the initial value at bin 1, and bin 0, whose count is
zero, keeps its initial value. -/
theorem hierarchical_accumulates_into_histogram_witness :
    (∃ h, computeHistogramOptimized (fun _ => (1 : ℤ)) 3 2 1 1 [7, 7] = some h ∧
      h.getD 1 0 = ([7, 7] : List ℤ).getD 1 0 + (((List.range 3).countP (fun i =>
        inRangeVal 2 ((fun _ => (1 : ℤ)) i) &&
          decide ((fun _ => (1 : ℤ)) i = ((1 : ℕ) : ℤ)))) : ℤ) ∧
      ((List.range 3).countP (fun i =>
        inRangeVal 2 ((fun _ => (1 : ℤ)) i) &&
          decide ((fun _ => (1 : ℤ)) i = ((1 : ℕ) : ℤ))) = 0 →
        h.getD 1 0 = ([7, 7] : List ℤ).getD 1 0)) ∧
    (∃ h, computeHistogramOptimized (fun _ => (1 : ℤ)) 3 2 1 1 [7, 7] = some h ∧
      h.getD 0 0 = ([7, 7] : List ℤ).getD 0 0 + (((List.range 3).countP (fun i =>
        inRangeVal 2 ((fun _ => (1 : ℤ)) i) &&
          decide ((fun _ => (1 : ℤ)) i = ((0 : ℕ) : ℤ)))) : ℤ) ∧
      ((List.range 3).countP (fun i =>
        inRangeVal 2 ((fun _ => (1 : ℤ)) i) &&
          decide ((fun _ => (1 : ℤ)) i = ((0 : ℕ) : ℤ))) = 0 →
        h.getD 0 0 = ([7, 7] : List ℤ).getD 0 0)) :=
  ⟨hierarchical_accumulates_into_histogram (fun _ => (1 : ℤ)) 3 2 1 1 [7, 7] 1
      (by decide) (by decide) (by decide) (by decide),
    hierarchical_accumulates_into_histogram (fun _ => (1 : ℤ)) 3 2 1 1 [7, 7] 0
      (by decide) (by decide) (by decide) (by decide)⟩

/-- C9: in the batched prefetch of the hierarchical kernel, every slot whose
global index is at least N holds the sentinel -1, which the classification
stage rejects without touching any accumulator; consequently the kernel
result depends only on the first N input cells, so no position past the end
of the sample buffer ever contributes to any bin. -/
theorem prefetch_sentinel_guards_tail :
    ∀ (input altInput : ℕ → ℤ) (N T base i numBins G bd : ℕ)
      (st : List ℤ × List ℤ) (init : List ℤ),
      (i < elementsPerThread → N ≤ base + i * T →
        (batchVals input N T base).getD i 0 = -1 ∧
        optClassify numBins st (-1) = some st) ∧
      ((∀ k, k < N → input k = altInput k) →
        computeHistogramOptimized input N numBins G bd init =
          computeHistogramOptimized altInput N numBins G bd init) := by
  intro input altInput N T base i numBins G bd st init
  constructor
  · intro hi hN
    constructor
    · rw [batchVals, List.getD_eq_getElem?_getD, List.getElem?_map,
        List.getElem?_range hi]
      show (if base + i * T < N then input (base + i * T) else -1) = -1
      rw [if_neg (by omega)]
    · rw [optClassify]
      have hfalse : inRangeVal numBins (-1) = false := by
        simp [inRangeVal]
      rw [hfalse]
      rfl
  · intro hagree
    have hbv : ∀ (T' b : ℕ), batchVals input N T' b = batchVals altInput N T' b := by
      intro T' b
      rw [batchVals, batchVals]
      apply List.map_congr_left
      intro k _
      by_cases hlt : b + k * T' < N
      · rw [if_pos hlt, if_pos hlt, hagree _ hlt]
      · rw [if_neg hlt, if_neg hlt]
    have hvals : ∀ (T' fuel b : ℕ),
        optThreadValsAux input N T' fuel b = optThreadValsAux altInput N T' fuel b := by
      intro T' fuel
      induction fuel with
      | zero => intro b; rfl
      | succ f ih =>
        intro b
        simp only [optThreadValsAux]
        by_cases hc : b < N ∧ 0 < T'
        · rw [if_pos hc, if_pos hc, hbv T' b, ih (b + T' * elementsPerThread)]
        · rw [if_neg hc, if_neg hc]
    have hthread : ∀ tid, optThreadVals input N (bd * G) tid =
        optThreadVals altInput N (bd * G) tid := by
      intro tid
      rw [optThreadVals, optThreadVals, hvals]
    rw [computeHistogramOptimized, computeHistogramOptimized]
    have hbody : (fun (hist : List ℤ) (bid : ℕ) => do
        let sh ← (blockThreads bd bid).foldlM
          (fun sh tid =>
            optThreadRun numBins (optThreadVals input N (bd * G) tid) sh)
          (List.replicate numBins 0)
        foldSharedToGlobal numBins sh hist) =
        (fun (hist : List ℤ) (bid : ℕ) => do
        let sh ← (blockThreads bd bid).foldlM
          (fun sh tid =>
            optThreadRun numBins (optThreadVals altInput N (bd * G) tid) sh)
          (List.replicate numBins 0)
        foldSharedToGlobal numBins sh hist) := by
      funext hist bid
      have hfun : (fun (sh : List ℤ) (tid : ℕ) =>
          optThreadRun numBins (optThreadVals input N (bd * G) tid) sh) =
          (fun (sh : List ℤ) (tid : ℕ) =>
          optThreadRun numBins (optThreadVals altInput N (bd * G) tid) sh) := by
        funext sh tid
        rw [hthread tid]
      rw [hfun]
    rw [hbody]

/-- C9 (witness): with N = 2 and a single one-thread block, slot 5 of the
first batch lies past the end, holds -1, is rejected by the classifier, and
changing the buffer past index 2 does not change the kernel result. -/
theorem prefetch_sentinel_guards_tail_witness :
    ((batchVals (fun _ => (3 : ℤ)) 2 1 0).getD 5 0 = -1 ∧
      optClassify 4 (([], []) : List ℤ × List ℤ) (-1) = some ([], [])) ∧
    computeHistogramOptimized (fun _ => (3 : ℤ)) 2 4 1 1 (List.replicate 4 0) =
      computeHistogramOptimized (fun k => if k < 2 then 3 else 99) 2 4 1 1
        (List.replicate 4 0) :=
  ⟨(prefetch_sentinel_guards_tail (fun _ => (3 : ℤ))
      (fun k => if k < 2 then 3 else 99) 2 1 0 5 4 1 1 ([], [])
      (List.replicate 4 0)).1 (by decide) (by decide),
    (prefetch_sentinel_guards_tail (fun _ => (3 : ℤ))
      (fun k => if k < 2 then 3 else 99) 2 1 0 5 4 1 1 ([], [])
      (List.replicate 4 0)).2 (by intro k hk; simp [hk])⟩

/-- C7 (witness): a run with too few arguments is a handled failure: exit
code 0, -1 on standard output, one diagnostic on standard error. -/
theorem testerMain_exit_contract_witness :
    (testerMain 2 none 0 [] [] [] 0).exitCode = 0 ∧
    ("-1" ∈ (testerMain 2 none 0 [] [] [] 0).stdoutLines ∧
      ∃ m, (testerMain 2 none 0 [] [] [] 0).stderrLines = [m]) :=
  ⟨(testerMain_exit_contract 2 none 0 [] [] [] 0).1,
    (testerMain_exit_contract 2 none 0 [] [] [] 0).2 (by decide)⟩
